import Mathlib

/-!
Verification of the thread-reconstruction core of the Soapbox front end:
the selectors `getAncestorsIds` and `getDescendantsIds` and the
cross-deduplication performed by the `Thread` component, embedded from
`src/unnamed/part_001` (lines 96-140 and 165-182).

Modelling conventions:
* item ids are strings (`StatusId := String`);
* the Immutable.js `Map` indexes (`state.contexts.inReplyTos`,
  `state.contexts.replies`) are association lists with first-match lookup
  (`mapGet`), matching the `get(id) -> optional<value>` contract;
* an Immutable.js `OrderedSet` is a duplicate-free list; `union` appends
  the elements of its argument that are not yet present, in order,
  `delete` and `subtract` filter;
* the two `while` loops are written with an explicit fuel parameter that
  bounds the number of iterations; `none` means the loop has not finished
  within `fuel` iterations.  Termination is then a theorem (a fuel value
  that always suffices), and the one input on which the source loop
  genuinely diverges is provable as `= none` for every fuel;
* JavaScript truthiness on ids (`if (!id) break`, `while (id && ...)`)
  is modelled by the explicit empty-string tests.
-/

abbrev StatusId := String

/-- The `state.contexts.inReplyTos` index: item id to the id it replies to. -/
abbrev ParentIndex := List (StatusId × StatusId)

/-- The `state.contexts.replies` index: item id to the ordered ids replying to it. -/
abbrev ChildIndex := List (StatusId × List StatusId)

/-- First-match association-list lookup, the `Map.get` of the source. -/
def mapGet {β : Type} (k : StatusId) : List (StatusId × β) → Option β
  | [] => none
  | (k', v) :: t => if k = k' then some v else mapGet k t

/-- Adding one element at the end of an ordered set if it is not present yet. -/
def osInsert (s : List StatusId) (y : StatusId) : List StatusId :=
  if y ∈ s then s else s ++ [y]

/-- Immutable.js `OrderedSet.union`: append the members of `ys` that are
not already in `xs`, in order. -/
def osUnion (xs ys : List StatusId) : List StatusId :=
  ys.foldl osInsert xs

/-- Immutable.js `OrderedSet.delete`. -/
def osDelete (s : List StatusId) (x : StatusId) : List StatusId :=
  s.filter (fun y => decide (y ≠ x))

/-- Immutable.js `OrderedSet.subtract`. -/
def osSubtract (s t : List StatusId) : List StatusId :=
  s.filter (fun y => decide (y ∉ t))

/-- The `while` loop of `getAncestorsIds` (src/unnamed/part_001 lines 100-106):
follow `inReplyTos` links from `id`, prepending each visited id, until the
id is falsy, absent, or already collected.  `fuel` bounds the number of
iterations; `none` means the loop did not finish within `fuel` steps. -/
def ancestorsGo (idx : ParentIndex) : Nat → List StatusId → Option StatusId → Option (List StatusId)
  | 0, _, _ => none
  | _ + 1, acc, none => some acc
  | fuel + 1, acc, some id =>
    if id = "" then some acc
    else if id ∈ acc then some acc
    else ancestorsGo idx fuel (osUnion [id] acc) (mapGet id idx)

/-- The `getAncestorsIds` selector (src/unnamed/part_001 lines 96-109).
The fuel `idx.length + 2` is proved sufficient below
(`ancestorsGo_terminates`), so `getD` never sees `none`. -/
def getAncestorsIds (statusId : Option StatusId) (inReplyTos : ParentIndex) : List StatusId :=
  (ancestorsGo inReplyTos (inReplyTos.length + 2) [] statusId).getD []

/-- The specification's `resolveAncestors` operation: `getAncestorsIds`
seeded at `parentIndex[focalId]`, exactly as the `Thread` component calls
it (src/unnamed/part_001 line 171). -/
def resolveAncestors (focalId : StatusId) (parentIndex : ParentIndex) : List StatusId :=
  getAncestorsIds (mapGet focalId parentIndex) parentIndex

/-- The `while` loop of `getDescendantsIds` (src/unnamed/part_001 lines
115-137): dequeue an id from the front of the work list; stop on a falsy
id or on an id already collected; append non-focal ids to the result;
push the dequeued id's reversed reply list element by element onto the
front of the work list. -/
def descendantsGo (contextReplies : ChildIndex) (statusId : StatusId) :
    Nat → List StatusId → List StatusId → Option (List StatusId)
  | 0, _, _ => none
  | _ + 1, [], acc => some acc
  | fuel + 1, id :: rest, acc =>
    if id = "" then some acc
    else if id ∈ acc then some acc
    else
      descendantsGo contextReplies statusId fuel
        (match mapGet id contextReplies with
          | some replies => replies.reverse.foldl (fun q reply => reply :: q) rest
          | none => rest)
        (if statusId ≠ id then osUnion acc [id] else acc)

/-- The value `getDescendantsIds` (src/unnamed/part_001 lines 111-140)
returns when its loop terminates: some fuel large enough for the loop to
finish with result `r`.  Larger fuels give the same result
(`descendantsGo_mono`), so `r` is unique (`descendantsResult_unique`). -/
def descendantsResult (contextReplies : ChildIndex) (statusId : StatusId) (r : List StatusId) : Prop :=
  ∃ fuel, descendantsGo contextReplies statusId fuel [statusId] [] = some r

/-- Line 173 of src/unnamed/part_001: the raw ancestor chain with the focal
id deleted and the raw descendants subtracted. -/
def threadAncestorsIds (statusId : StatusId) (inReplyTos : ParentIndex)
    (descendantsRaw : List StatusId) : List StatusId :=
  osSubtract (osDelete (getAncestorsIds (mapGet statusId inReplyTos) inReplyTos) statusId)
    descendantsRaw

/-- Line 174 of src/unnamed/part_001: the raw descendants with the focal id
deleted and the already-reduced ancestor chain subtracted. -/
def threadDescendantsIds (statusId : StatusId) (inReplyTos : ParentIndex)
    (descendantsRaw : List StatusId) : List StatusId :=
  osSubtract (osDelete descendantsRaw statusId)
    (threadAncestorsIds statusId inReplyTos descendantsRaw)

/-- The cross-deduplication performed in the `Thread` component
(src/unnamed/part_001 lines 165-182): given the raw descendants result,
the final (ancestors, descendants) pair.  The raw ancestor chain is reduced
first (delete focal, subtract raw descendants); the raw descendant set then
subtracts the already-reduced ancestor chain. -/
def threadSelector (statusId : StatusId) (inReplyTos : ParentIndex)
    (descendantsRaw : List StatusId) : List StatusId × List StatusId :=
  (threadAncestorsIds statusId inReplyTos descendantsRaw,
   threadDescendantsIds statusId inReplyTos descendantsRaw)

/-- Ordered reply list recorded for `id`, the empty list when absent. -/
def childrenOf (cr : ChildIndex) (id : StatusId) : List StatusId :=
  (mapGet id cr).getD []

/-- Every id occurring in some reply list of the child index, in index order. -/
def allChildren (cr : ChildIndex) : List StatusId :=
  (cr.map Prod.snd).flatten

/-- A child index that is tree-shaped with respect to a focal id: no id is
recorded as a reply twice, the focal id is recorded as nobody's reply, and
no recorded id is the empty string (which the source treats as absent). -/
def treeShaped (cr : ChildIndex) (focal : StatusId) : Prop :=
  (allChildren cr).Nodup ∧ focal ∉ allChildren cr ∧ focal ≠ "" ∧ "" ∉ allChildren cr

instance treeShapedDecidable (cr : ChildIndex) (focal : StatusId) :
    Decidable (treeShaped cr focal) := by
  unfold treeShaped
  infer_instance

/-- Reachability along the child index: `CReach cr x y` holds when `y` is
obtainable from `x` by following zero or more reply links. -/
inductive CReach (cr : ChildIndex) : StatusId → StatusId → Prop
  | refl (x : StatusId) : CReach cr x x
  | tail {x y z : StatusId} : CReach cr x y → z ∈ childrenOf cr y → CReach cr x z

/-- One parent-link step on an optional id. -/
def parentStep (idx : ParentIndex) (o : Option StatusId) : Option StatusId :=
  o.bind (fun i => mapGet i idx)

/-- Iterated parent-link steps. -/
def parentIter (idx : ParentIndex) : Nat → Option StatusId → Option StatusId
  | 0, o => o
  | n + 1, o => parentIter idx n (parentStep idx o)

/-- Modelled from the spec: the full chain of parents reachable from `o`,
root-first, as `resolveAncestors` is described ("starting from
`parentIndex[focalId]`, repeatedly follow the parent link, prepending each
visited id, until an id has no parent entry").  `none` when the chain does
not reach a root within `fuel` links (a parent cycle). -/
def specChainGo (idx : ParentIndex) : Nat → Option StatusId → Option (List StatusId)
  | 0, _ => none
  | _ + 1, none => some []
  | fuel + 1, some x => (specChainGo idx fuel (mapGet x idx)).map (fun c => c ++ [x])

-- ===== basic facts about the ordered-set operations =====

theorem osInsert_not_mem {s : List StatusId} {y : StatusId} (h : y ∉ s) :
    osInsert s y = s ++ [y] := by
  simp [osInsert, h]

theorem osUnion_disjoint {ys : List StatusId} :
    ∀ {xs : List StatusId}, (∀ y ∈ ys, y ∉ xs) → ys.Nodup → osUnion xs ys = xs ++ ys := by
  induction ys with
  | nil => intro xs _ _; simp [osUnion]
  | cons y t ih =>
    intro xs hdis hnd
    have hy : y ∉ xs := hdis y (by simp)
    have : osUnion xs (y :: t) = osUnion (xs ++ [y]) t := by
      simp [osUnion, osInsert_not_mem hy]
    rw [this, ih]
    · simp
    · intro z hz
      simp only [List.mem_append, List.mem_singleton]
      rcases List.nodup_cons.mp hnd with ⟨hyt, _⟩
      push_neg
      exact ⟨hdis z (by simp [hz]), fun h => hyt (h ▸ hz)⟩
    · exact (List.nodup_cons.mp hnd).2

theorem osUnion_singleton_right {acc : List StatusId} {id : StatusId} (h : id ∉ acc) :
    osUnion acc [id] = acc ++ [id] := by
  simp [osUnion, osInsert_not_mem h]

theorem osUnion_singleton_left {acc : List StatusId} {id : StatusId}
    (h : id ∉ acc) (hnd : acc.Nodup) : osUnion [id] acc = id :: acc := by
  have := @osUnion_disjoint acc [id]
    (fun y hy => by simp; intro he; exact h (he ▸ hy)) hnd
  simpa using this

theorem mem_osDelete {s : List StatusId} {x y : StatusId} :
    y ∈ osDelete s x ↔ y ∈ s ∧ y ≠ x := by
  simp [osDelete]

theorem mem_osSubtract {s t : List StatusId} {y : StatusId} :
    y ∈ osSubtract s t ↔ y ∈ s ∧ y ∉ t := by
  simp [osSubtract]

-- ===== basic facts about lookups and the child index =====

theorem mapGet_mem_values {β : Type} {m : List (StatusId × β)} {k : StatusId} {v : β}
    (h : mapGet k m = some v) : v ∈ m.map Prod.snd := by
  induction m with
  | nil => simp [mapGet] at h
  | cons p t ih =>
    obtain ⟨k', v'⟩ := p
    by_cases hk : k = k'
    · simp [mapGet, hk] at h
      simp [h]
    · simp [mapGet, hk] at h
      simp [ih h]

theorem sublist_flatten {α : Type} {l : List α} {L : List (List α)}
    (h : l ∈ L) : l.Sublist L.flatten := by
  induction L with
  | nil => simp at h
  | cons hd t ih =>
    rcases List.mem_cons.mp h with h | h
    · rw [h, List.flatten_cons]
      exact List.sublist_append_left _ _
    · rw [List.flatten_cons]
      exact (ih h).trans (List.sublist_append_right _ _)

theorem mapGet_sublist_allChildren {cr : ChildIndex} {k : StatusId} {l : List StatusId}
    (h : mapGet k cr = some l) : l.Sublist (allChildren cr) :=
  sublist_flatten (mapGet_mem_values h)

theorem childrenOf_sublist_allChildren (cr : ChildIndex) (k : StatusId) :
    (childrenOf cr k).Sublist (allChildren cr) := by
  unfold childrenOf
  cases h : mapGet k cr with
  | none => simp
  | some l => simpa using mapGet_sublist_allChildren h

theorem mem_childrenOf_mem_allChildren {cr : ChildIndex} {k y : StatusId}
    (h : y ∈ childrenOf cr k) : y ∈ allChildren cr :=
  (childrenOf_sublist_allChildren cr k).mem h

/-- In a child index whose joined reply lists are duplicate-free, the reply
lists of two distinct ids are disjoint. -/
theorem childrenOf_disjoint {cr : ChildIndex} (hnd : (allChildren cr).Nodup)
    {p q : StatusId} (hpq : p ≠ q) {x : StatusId}
    (hp : x ∈ childrenOf cr p) (hq : x ∈ childrenOf cr q) : False := by
  induction cr with
  | nil => simp [childrenOf, mapGet] at hp
  | cons e t ih =>
    obtain ⟨k, v⟩ := e
    have hnd' : (v ++ allChildren t).Nodup := by
      simpa [allChildren] using hnd
    have hdisj := List.disjoint_of_nodup_append hnd'
    by_cases hpk : p = k
    · have hpv : x ∈ v := by simpa [childrenOf, mapGet, hpk] using hp
      have hqk : q ≠ k := fun h => hpq (hpk.trans h.symm)
      have hq' : x ∈ childrenOf t q := by
        simpa [childrenOf, mapGet, hqk] using hq
      exact hdisj hpv (mem_childrenOf_mem_allChildren hq')
    · by_cases hqk : q = k
      · have hqv : x ∈ v := by simpa [childrenOf, mapGet, hqk] using hq
        have hp' : x ∈ childrenOf t p := by
          simpa [childrenOf, mapGet, hpk] using hp
        exact hdisj hqv (mem_childrenOf_mem_allChildren hp')
      · have hp' : x ∈ childrenOf t p := by
          simpa [childrenOf, mapGet, hpk] using hp
        have hq' : x ∈ childrenOf t q := by
          simpa [childrenOf, mapGet, hqk] using hq
        exact ih (List.Nodup.of_append_right hnd') hp' hq'

/-- Reversing then repeatedly pushing to the front restores the original
order at the front of the queue: the `replies.reverse().forEach(unshift)`
of the source is list append. -/
theorem foldl_cons_reverse (l init : List StatusId) :
    l.reverse.foldl (fun q reply => reply :: q) init = l ++ init := by
  induction l generalizing init with
  | nil => simp
  | cons hd t ih =>
    simp only [List.reverse_cons, List.foldl_append, List.foldl_cons, List.foldl_nil]
    rw [ih init, List.cons_append]

-- ===== fuel monotonicity: larger fuel never changes a finished run =====

theorem descendantsGo_mono {cr : ChildIndex} {s : StatusId} :
    ∀ {fuel : Nat} {q a r : List StatusId},
      descendantsGo cr s fuel q a = some r →
      descendantsGo cr s (fuel + 1) q a = some r := by
  intro fuel
  induction fuel with
  | zero => intro q a r h; simp [descendantsGo] at h
  | succ n ih =>
    intro q a r h
    match q with
    | [] =>
      simp only [descendantsGo] at h ⊢
      exact h
    | id :: rest =>
      simp only [descendantsGo] at h ⊢
      split_ifs at h ⊢ <;> first
        | exact h
        | exact ih h

theorem descendantsGo_le {cr : ChildIndex} {s : StatusId}
    {fuel fuel' : Nat} {q a r : List StatusId} (hle : fuel ≤ fuel')
    (h : descendantsGo cr s fuel q a = some r) :
    descendantsGo cr s fuel' q a = some r := by
  induction hle with
  | refl => exact h
  | step _ ih => exact descendantsGo_mono ih

theorem descendantsResult_unique {cr : ChildIndex} {s : StatusId}
    {r₁ r₂ : List StatusId} (h₁ : descendantsResult cr s r₁)
    (h₂ : descendantsResult cr s r₂) : r₁ = r₂ := by
  obtain ⟨n₁, e₁⟩ := h₁
  obtain ⟨n₂, e₂⟩ := h₂
  have f₁ := descendantsGo_le (Nat.le_max_left n₁ n₂) e₁
  have f₂ := descendantsGo_le (Nat.le_max_right n₁ n₂) e₂
  rw [f₁] at f₂
  exact Option.some.inj f₂

theorem ancestorsGo_mono {idx : ParentIndex} :
    ∀ {fuel : Nat} {acc : List StatusId} {o : Option StatusId} {r : List StatusId},
      ancestorsGo idx fuel acc o = some r →
      ancestorsGo idx (fuel + 1) acc o = some r := by
  intro fuel
  induction fuel with
  | zero => intro acc o r h; simp [ancestorsGo] at h
  | succ n ih =>
    intro acc o r h
    match o with
    | none =>
      simp only [ancestorsGo] at h ⊢
      exact h
    | some id =>
      simp only [ancestorsGo] at h ⊢
      split_ifs at h ⊢ <;> first
        | exact h
        | exact ih h

theorem ancestorsGo_le {idx : ParentIndex} {fuel fuel' : Nat}
    {acc : List StatusId} {o : Option StatusId} {r : List StatusId}
    (hle : fuel ≤ fuel') (h : ancestorsGo idx fuel acc o = some r) :
    ancestorsGo idx fuel' acc o = some r := by
  induction hle with
  | refl => exact h
  | step _ ih => exact ancestorsGo_mono ih

-- ===== membership in ordered-set unions =====

theorem mem_osInsert {s : List StatusId} {y z : StatusId} :
    z ∈ osInsert s y ↔ z ∈ s ∨ z = y := by
  by_cases h : y ∈ s
  · simp only [osInsert, if_pos h]
    constructor
    · exact Or.inl
    · rintro (hz | rfl)
      · exact hz
      · exact h
  · simp [osInsert, if_neg h]

theorem mem_osUnion {ys : List StatusId} :
    ∀ {xs : List StatusId} {z : StatusId}, z ∈ osUnion xs ys ↔ z ∈ xs ∨ z ∈ ys := by
  induction ys with
  | nil => intro xs z; simp [osUnion]
  | cons y t ih =>
    intro xs z
    have : osUnion xs (y :: t) = osUnion (osInsert xs y) t := by
      simp [osUnion]
    rw [this, ih, mem_osInsert]
    constructor
    · rintro ((hz | rfl) | hz)
      · exact Or.inl hz
      · exact Or.inr (by simp)
      · exact Or.inr (by simp [hz])
    · rintro (hz | hz)
      · exact Or.inl (Or.inl hz)
      · rcases List.mem_cons.mp hz with rfl | hz
        · exact Or.inl (Or.inr rfl)
        · exact Or.inr hz

-- ===== strict decrease of a filtered length =====

theorem filter_length_lt_of_mem (l : List StatusId) (x : StatusId)
    (p : StatusId → Bool) (hx : x ∈ l) (hp : p x = false) :
    (l.filter p).length < l.length := by
  induction l with
  | nil => simp at hx
  | cons hd t ih =>
    rcases List.mem_cons.mp hx with rfl | hx
    · rw [List.filter_cons, hp]
      simpa using Nat.lt_succ_of_le (List.length_filter_le p t)
    · rw [List.filter_cons]
      cases hq : p hd
      · simpa using Nat.lt_succ_of_lt (ih hx)
      · simpa using Nat.succ_lt_succ (ih hx)

-- ===== termination of the ancestors loop =====

/-- Inner induction for the termination bound: when the pending id is a
value of the index, the loop finishes once the fuel exceeds the number of
index values not yet collected. -/
theorem ancestorsGo_some_of_value {idx : ParentIndex} :
    ∀ {fuel : Nat} {acc : List StatusId} {o : Option StatusId},
      (∀ s, o = some s → s ∈ idx.map Prod.snd) →
      ((idx.map Prod.snd).filter (fun v => decide (v ∉ acc))).length < fuel →
      ancestorsGo idx fuel acc o ≠ none := by
  intro fuel
  induction fuel with
  | zero => intro acc o _ hlen; omega
  | succ n ih =>
    intro acc o hv hlen
    match o with
    | none => simp [ancestorsGo]
    | some s =>
      by_cases h1 : s = ""
      · simp [ancestorsGo, h1]
      · by_cases h2 : s ∈ acc
        · simp [ancestorsGo, h1, h2]
        · have hstep : ancestorsGo idx (n + 1) acc (some s) =
              ancestorsGo idx n (osUnion [s] acc) (mapGet s idx) := by
            simp [ancestorsGo, h1, h2]
          rw [hstep]
          apply ih
          · intro t ht
            exact mapGet_mem_values ht
          · have hs : s ∈ idx.map Prod.snd := hv s rfl
            have hsub : ∀ v : StatusId,
                (decide (v ∉ osUnion [s] acc) : Bool) = true → (decide (v ∉ acc) : Bool) = true := by
              intro v hvv
              simp only [decide_eq_true_eq] at hvv ⊢
              intro hva
              exact hvv (mem_osUnion.mpr (Or.inr hva))
            have heq : (idx.map Prod.snd).filter (fun v => decide (v ∉ osUnion [s] acc)) =
                ((idx.map Prod.snd).filter (fun v => decide (v ∉ acc))).filter
                  (fun v => decide (v ∉ osUnion [s] acc)) := by
              rw [List.filter_filter]
              apply List.filter_congr
              intro v _
              cases hd : (decide (v ∉ osUnion [s] acc) : Bool)
              · simp
              · simp [hsub v hd]
            rw [heq]
            have hsin : s ∈ (idx.map Prod.snd).filter (fun v => decide (v ∉ acc)) := by
              simp [List.mem_filter, hs, h2]
            have hsfalse : (decide (s ∉ osUnion [s] acc) : Bool) = false := by
              simp [mem_osUnion]
            have := filter_length_lt_of_mem _ s (fun v => decide (v ∉ osUnion [s] acc)) hsin hsfalse
            omega

/-- The `getAncestorsIds` loop always finishes within `idx.length + 2`
iterations, for every starting id. -/
theorem ancestorsGo_terminates (idx : ParentIndex) (o : Option StatusId) :
    ancestorsGo idx (idx.length + 2) [] o ≠ none := by
  match o with
  | none => simp [ancestorsGo]
  | some s =>
    by_cases h1 : s = ""
    · simp [ancestorsGo, h1]
    · have hstep : ancestorsGo idx (idx.length + 2) [] (some s) =
          ancestorsGo idx (idx.length + 1) (osUnion [s] []) (mapGet s idx) := by
        simp [ancestorsGo, h1]
      rw [hstep]
      apply ancestorsGo_some_of_value
      · intro t ht
        exact mapGet_mem_values ht
      · calc ((idx.map Prod.snd).filter
              (fun v => decide (v ∉ osUnion [s] []))).length
            ≤ (idx.map Prod.snd).length := List.length_filter_le _ _
          _ = idx.length := List.length_map _ _
          _ < idx.length + 1 := Nat.lt_succ_self _

-- ===== invariants of the ancestors loop =====

/-- Every finished ancestors run yields a duplicate-free list whose members
come from the initial accumulator, the starting id, or the index values. -/
theorem ancestorsGo_inv {idx : ParentIndex} :
    ∀ {fuel : Nat} {acc : List StatusId} {o : Option StatusId} {r : List StatusId},
      ancestorsGo idx fuel acc o = some r → acc.Nodup →
      r.Nodup ∧ ∀ x ∈ r, x ∈ acc ∨ (∃ s, o = some s ∧ x = s) ∨ x ∈ idx.map Prod.snd := by
  intro fuel
  induction fuel with
  | zero => intro acc o r h _; simp [ancestorsGo] at h
  | succ n ih =>
    intro acc o r h hnd
    match o with
    | none =>
      simp only [ancestorsGo, Option.some.injEq] at h
      subst h
      exact ⟨hnd, fun x hx => Or.inl hx⟩
    | some s =>
      by_cases h1 : s = ""
      · rw [show ancestorsGo idx (n + 1) acc (some s) = some acc from by
          simp [ancestorsGo, h1]] at h
        obtain rfl := Option.some.inj h
        exact ⟨hnd, fun x hx => Or.inl hx⟩
      · by_cases h2 : s ∈ acc
        · rw [show ancestorsGo idx (n + 1) acc (some s) = some acc from by
            simp [ancestorsGo, h1, h2]] at h
          obtain rfl := Option.some.inj h
          exact ⟨hnd, fun x hx => Or.inl hx⟩
        · rw [show ancestorsGo idx (n + 1) acc (some s) =
              ancestorsGo idx n (osUnion [s] acc) (mapGet s idx) from by
            simp [ancestorsGo, h1, h2]] at h
          rw [osUnion_singleton_left h2 hnd] at h
          have hnd' : (s :: acc).Nodup := List.nodup_cons.mpr ⟨h2, hnd⟩
          obtain ⟨hr, hmem⟩ := ih h hnd'
          refine ⟨hr, fun x hx => ?_⟩
          rcases hmem x hx with hx' | ⟨t, ht, rfl⟩ | hx'
          · rcases List.mem_cons.mp hx' with rfl | hx''
            · exact Or.inr (Or.inl ⟨x, rfl, rfl⟩)
            · exact Or.inl hx''
          · exact Or.inr (Or.inr (mapGet_mem_values ht))
          · exact Or.inr (Or.inr hx')

-- ===== iterated parent steps =====

theorem parentStep_none (idx : ParentIndex) : parentStep idx none = none := rfl

theorem parentStep_some (idx : ParentIndex) (x : StatusId) :
    parentStep idx (some x) = mapGet x idx := rfl

theorem parentIter_none (idx : ParentIndex) : ∀ n, parentIter idx n none = none
  | 0 => rfl
  | n + 1 => by
    rw [show parentIter idx (n + 1) none = parentIter idx n (parentStep idx none) from rfl,
      parentStep_none]
    exact parentIter_none idx n

theorem parentIter_add (idx : ParentIndex) (a : Nat) :
    ∀ (b : Nat) (o : Option StatusId),
      parentIter idx (a + b) o = parentIter idx a (parentIter idx b o) := by
  intro b
  induction b with
  | zero => intro o; rfl
  | succ m ih =>
    intro o
    rw [show a + (m + 1) = (a + m) + 1 from rfl]
    rw [show parentIter idx ((a + m) + 1) o = parentIter idx (a + m) (parentStep idx o) from rfl]
    rw [show parentIter idx (m + 1) o = parentIter idx m (parentStep idx o) from rfl]
    exact ih (parentStep idx o)

theorem parentIter_succ_right (idx : ParentIndex) :
    ∀ (n : Nat) (o : Option StatusId),
      parentIter idx (n + 1) o = parentStep idx (parentIter idx n o) := by
  intro n
  induction n with
  | zero => intro o; rfl
  | succ m ih =>
    intro o
    rw [show parentIter idx (m + 1 + 1) o = parentIter idx (m + 1) (parentStep idx o) from rfl]
    rw [ih (parentStep idx o)]
    rfl

/-- Every id the ancestors loop collects is reached from the focal id by at
least one parent link, provided the accumulator and pending id already are. -/
theorem ancestorsGo_reach {idx : ParentIndex} {focal : StatusId} :
    ∀ {fuel : Nat} {acc : List StatusId} {o : Option StatusId} {r : List StatusId},
      ancestorsGo idx fuel acc o = some r →
      (∀ a ∈ acc, ∃ k, 0 < k ∧ parentIter idx k (some focal) = some a) →
      (∃ k, 0 < k ∧ parentIter idx k (some focal) = o) →
      ∀ x ∈ r, ∃ k, 0 < k ∧ parentIter idx k (some focal) = some x := by
  intro fuel
  induction fuel with
  | zero => intro acc o r h _ _; simp [ancestorsGo] at h
  | succ n ih =>
    intro acc o r h hacc ho
    match o with
    | none =>
      simp only [ancestorsGo, Option.some.injEq] at h
      subst h
      exact hacc
    | some s =>
      by_cases h1 : s = ""
      · rw [show ancestorsGo idx (n + 1) acc (some s) = some acc from by
          simp [ancestorsGo, h1]] at h
        obtain rfl := Option.some.inj h
        exact hacc
      · by_cases h2 : s ∈ acc
        · rw [show ancestorsGo idx (n + 1) acc (some s) = some acc from by
            simp [ancestorsGo, h1, h2]] at h
          obtain rfl := Option.some.inj h
          exact hacc
        · rw [show ancestorsGo idx (n + 1) acc (some s) =
              ancestorsGo idx n (osUnion [s] acc) (mapGet s idx) from by
            simp [ancestorsGo, h1, h2]] at h
          obtain ⟨k, hk, hko⟩ := ho
          apply ih h
          · intro a ha
            rcases mem_osUnion.mp ha with ha' | ha'
            · rcases List.mem_singleton.mp ha' with rfl
              exact ⟨k, hk, hko⟩
            · exact hacc a ha'
          · refine ⟨k + 1, Nat.succ_pos k, ?_⟩
            rw [parentIter_succ_right, hko, parentStep_some]

-- ===== the ideal parent chain of the specification =====

theorem specChainGo_mem {idx : ParentIndex} :
    ∀ {m : Nat} {o : Option StatusId} {c : List StatusId},
      specChainGo idx m o = some c → ∀ x ∈ c, ∃ k, parentIter idx k o = some x := by
  intro m
  induction m with
  | zero => intro o c h; simp [specChainGo] at h
  | succ n ih =>
    intro o c h
    match o with
    | none =>
      simp only [specChainGo, Option.some.injEq] at h
      subst h
      intro x hx
      simp at hx
    | some y =>
      simp only [specChainGo, Option.map_eq_some'] at h
      obtain ⟨c', hc', rfl⟩ := h
      intro x hx
      rcases List.mem_append.mp hx with hx' | hx'
      · obtain ⟨k, hk⟩ := ih hc' x hx'
        exact ⟨k + 1, by
          rw [show parentIter idx (k + 1) (some y) =
            parentIter idx k (parentStep idx (some y)) from rfl, parentStep_some]
          exact hk⟩
      · rcases List.mem_singleton.mp hx' with rfl
        exact ⟨0, rfl⟩

theorem specChainGo_term {idx : ParentIndex} :
    ∀ {m : Nat} {o : Option StatusId} {c : List StatusId},
      specChainGo idx m o = some c → parentIter idx c.length o = none := by
  intro m
  induction m with
  | zero => intro o c h; simp [specChainGo] at h
  | succ n ih =>
    intro o c h
    match o with
    | none =>
      simp only [specChainGo, Option.some.injEq] at h
      subst h
      rfl
    | some y =>
      simp only [specChainGo, Option.map_eq_some'] at h
      obtain ⟨c', hc', rfl⟩ := h
      rw [List.length_append, List.length_singleton]
      rw [show parentIter idx (c'.length + 1) (some y) =
        parentIter idx c'.length (parentStep idx (some y)) from rfl, parentStep_some]
      exact ih hc'

theorem specChainGo_steps_ne_none {idx : ParentIndex} :
    ∀ {m : Nat} {o : Option StatusId} {c : List StatusId},
      specChainGo idx m o = some c →
      ∀ j, j < c.length → parentIter idx j o ≠ none := by
  intro m
  induction m with
  | zero => intro o c h; simp [specChainGo] at h
  | succ n ih =>
    intro o c h j hj
    match o with
    | none =>
      simp only [specChainGo, Option.some.injEq] at h
      subst h
      simp at hj
    | some y =>
      simp only [specChainGo, Option.map_eq_some'] at h
      obtain ⟨c', hc', rfl⟩ := h
      match j with
      | 0 => simp [parentIter]
      | j' + 1 =>
        rw [show parentIter idx (j' + 1) (some y) =
          parentIter idx j' (parentStep idx (some y)) from rfl, parentStep_some]
        apply ih hc'
        rw [List.length_append, List.length_singleton] at hj
        omega

theorem specChainGo_nodup {idx : ParentIndex} :
    ∀ {m : Nat} {o : Option StatusId} {c : List StatusId},
      specChainGo idx m o = some c → c.Nodup := by
  intro m
  induction m with
  | zero => intro o c h; simp [specChainGo] at h
  | succ n ih =>
    intro o c h
    match o with
    | none =>
      simp only [specChainGo, Option.some.injEq] at h
      subst h
      exact List.nodup_nil
    | some y =>
      simp only [specChainGo, Option.map_eq_some'] at h
      obtain ⟨c', hc', rfl⟩ := h
      have hc'nd : c'.Nodup := ih hc'
      have hy : y ∉ c' := by
        intro hyc
        obtain ⟨k, hk⟩ := specChainGo_mem hc' y hyc
        have hcyc : ∀ t : Nat, parentIter idx (t * (k + 1)) (some y) = some y := by
          intro t
          induction t with
          | zero => simp [parentIter]
          | succ u ihu =>
            rw [show (u + 1) * (k + 1) = u * (k + 1) + (k + 1) by ring]
            rw [parentIter_add, show parentIter idx (k + 1) (some y) =
              parentIter idx k (parentStep idx (some y)) from rfl, parentStep_some, hk]
            exact ihu
        have hterm := specChainGo_term (show specChainGo idx (n + 1) (some y) =
          some (c' ++ [y]) from by simp [specChainGo, hc'])
        set L := (c' ++ [y]).length with hL
        have hLpos : 0 < L := by simp [hL]
        have habs : parentIter idx (L * (k + 1)) (some y) = none := by
          have : L * (k + 1) = (L * (k + 1) - L) + L := by
            have : L ≤ L * (k + 1) := Nat.le_mul_of_pos_right L (Nat.succ_pos k)
            omega
          rw [this, parentIter_add, hterm, parentIter_none]
        rw [hcyc L] at habs
        exact Option.noConfusion habs
      exact List.Nodup.append hc'nd (List.nodup_singleton y)
        (List.disjoint_singleton.mpr hy)

theorem specChainGo_values {idx : ParentIndex} :
    ∀ {m : Nat} {o : Option StatusId} {c : List StatusId},
      specChainGo idx m o = some c →
      (∀ s, o = some s → s ∈ idx.map Prod.snd) →
      ∀ x ∈ c, x ∈ idx.map Prod.snd := by
  intro m
  induction m with
  | zero => intro o c h; simp [specChainGo] at h
  | succ n ih =>
    intro o c h hv
    match o with
    | none =>
      simp only [specChainGo, Option.some.injEq] at h
      subst h
      intro x hx
      simp at hx
    | some y =>
      simp only [specChainGo, Option.map_eq_some'] at h
      obtain ⟨c', hc', rfl⟩ := h
      intro x hx
      rcases List.mem_append.mp hx with hx' | hx'
      · exact ih hc' (fun t ht => mapGet_mem_values ht) x hx'
      · rcases List.mem_singleton.mp hx' with rfl
        exact hv x rfl

/-- When the ideal chain of the specification exists (the parent links from
the start reach a root), the source loop computes exactly that chain,
appended in front of whatever had been accumulated. -/
theorem ancestorsGo_eq_specChain {idx : ParentIndex} :
    ∀ {m : Nat} {o : Option StatusId} {c : List StatusId},
      specChainGo idx m o = some c → "" ∉ c →
      ∀ {acc : List StatusId} {fuel : Nat}, acc.Nodup →
        (∀ x ∈ c, x ∉ acc) → c.length < fuel →
        ancestorsGo idx fuel acc o = some (c ++ acc) := by
  intro m
  induction m with
  | zero => intro o c h; simp [specChainGo] at h
  | succ n ih =>
    intro o c h hne acc fuel hnd hdis hfuel
    match o with
    | none =>
      simp only [specChainGo, Option.some.injEq] at h
      subst h
      obtain ⟨f, rfl⟩ : ∃ f, fuel = f + 1 := ⟨fuel - 1, by omega⟩
      simp [ancestorsGo]
    | some y =>
      simp only [specChainGo, Option.map_eq_some'] at h
      obtain ⟨c', hc', rfl⟩ := h
      have hynd : (c' ++ [y]).Nodup := specChainGo_nodup (by
        rw [show specChainGo idx (n + 1) (some y) =
          (specChainGo idx n (mapGet y idx)).map (fun c => c ++ [y]) from rfl, hc']
        rfl)
      have hyc' : y ∉ c' := by
        have := List.disjoint_of_nodup_append hynd
        intro hy
        exact this hy (by simp)
      have hy1 : y ≠ "" := by
        intro he
        exact hne (he ▸ (by simp : y ∈ c' ++ [y]))
      have hy2 : y ∉ acc := hdis y (by simp)
      obtain ⟨f, rfl⟩ : ∃ f, fuel = f + 1 := ⟨fuel - 1, by omega⟩
      rw [show ancestorsGo idx (f + 1) acc (some y) =
          ancestorsGo idx f (osUnion [y] acc) (mapGet y idx) from by
        simp [ancestorsGo, hy1, hy2]]
      rw [osUnion_singleton_left hy2 hnd]
      rw [ih hc' (fun he => hne (List.mem_append.mpr (Or.inl he)))
        (List.nodup_cons.mpr ⟨hy2, hnd⟩)
        (fun x hx => by
          simp only [List.mem_cons, not_or]
          exact ⟨fun he => hyc' (he ▸ hx), hdis x (List.mem_append.mpr (Or.inl hx))⟩)
        (by
          rw [List.length_append, List.length_singleton] at hfuel
          omega)]
      rw [List.append_assoc, List.singleton_append]

-- ===== single step of the descendants loop =====

/-- One non-terminal iteration of the descendants loop: the dequeued id is
appended to the result (unless focal) and its reply list ends up, in its
original order, at the front of the work queue. -/
theorem descendantsGo_step {cr : ChildIndex} {focal : StatusId} {fuel : Nat}
    {id : StatusId} {rest acc : List StatusId}
    (h1 : id ≠ "") (h2 : id ∉ acc) :
    descendantsGo cr focal (fuel + 1) (id :: rest) acc =
      descendantsGo cr focal fuel (childrenOf cr id ++ rest)
        (if focal ≠ id then acc ++ [id] else acc) := by
  cases hm : mapGet id cr with
  | none =>
    simp [descendantsGo, h1, h2, hm, childrenOf, osUnion_singleton_right h2]
  | some rs =>
    simp [descendantsGo, h1, h2, hm, childrenOf, foldl_cons_reverse,
      osUnion_singleton_right h2]

-- ===== soundness of the descendants loop (reachability) =====

/-- Everything ever collected by the descendants loop is reachable from the
focal id, provided everything already collected or pending is. -/
theorem descendantsGo_reach {cr : ChildIndex} {focal : StatusId} :
    ∀ {fuel : Nat} {q a r : List StatusId},
      descendantsGo cr focal fuel q a = some r →
      (∀ y, y ∈ a ++ q → CReach cr focal y) →
      ∀ y ∈ r, CReach cr focal y := by
  intro fuel
  induction fuel with
  | zero => intro q a r h _; simp [descendantsGo] at h
  | succ n ih =>
    intro q a r h hinv
    match q with
    | [] =>
      simp only [descendantsGo, Option.some.injEq] at h
      subst h
      intro y hy
      exact hinv y (by simp [hy])
    | id :: rest =>
      by_cases h1 : id = ""
      · rw [show descendantsGo cr focal (n + 1) (id :: rest) a = some a from by
          simp [descendantsGo, h1]] at h
        obtain rfl := Option.some.inj h
        intro y hy
        exact hinv y (by simp [hy])
      · by_cases h2 : id ∈ a
        · rw [show descendantsGo cr focal (n + 1) (id :: rest) a = some a from by
            simp [descendantsGo, h1, h2]] at h
          obtain rfl := Option.some.inj h
          intro y hy
          exact hinv y (by simp [hy])
        · rw [descendantsGo_step h1 h2] at h
          apply ih h
          intro y hy
          have hid : CReach cr focal id := hinv id (by simp)
          rcases List.mem_append.mp hy with hy' | hy'
          · by_cases hf : focal ≠ id
            · rw [if_pos hf] at hy'
              rcases List.mem_append.mp hy' with hy'' | hy''
              · exact hinv y (by simp [hy''])
              · rcases List.mem_singleton.mp hy'' with rfl
                exact hid
            · rw [if_neg hf] at hy'
              exact hinv y (by simp [hy'])
          · rcases List.mem_append.mp hy' with hy'' | hy''
            · exact CReach.tail hid hy''
            · exact hinv y (by simp [hy''])

-- ===== divergence of the source loop on a focal self-reply =====

/-- When the focal id lists itself as its own reply, the descendants loop
never finishes: the focal id is dequeued, skipped (it is never added to the
collected set, so the visited guard cannot fire for it), and its reply list
puts it straight back at the head of the queue. -/
theorem descendantsGo_selfloop_none :
    ∀ fuel : Nat, descendantsGo [("A", ["A"])] "A" fuel ["A"] [] = none := by
  intro fuel
  induction fuel with
  | zero => rfl
  | succ n ih =>
    rw [show descendantsGo [("A", ["A"])] "A" (n + 1) ["A"] [] =
        descendantsGo [("A", ["A"])] "A" n ["A"] [] from by
      simp +decide [descendantsGo, mapGet]]
    exact ih

-- ===== completeness of the descendants loop on tree-shaped indexes =====

/-- Invariant argument for tree-shaped child indexes: the visited guard and
the falsy-id guard never fire, each pending id is expanded exactly once,
and the final result is closed under reply links of the focal id and of
every collected id. -/
theorem descendantsGo_tree {cr : ChildIndex} {focal : StatusId}
    (ht : treeShaped cr focal) :
    ∀ {fuel : Nat} {q a : List StatusId},
      (a ++ q).Nodup →
      (∀ y ∈ a ++ q, ∃ p, (p = focal ∨ p ∈ a) ∧ y ∈ childrenOf cr p) →
      (∀ y ∈ a ++ q, CReach cr focal y) →
      (∀ p, p = focal ∨ p ∈ a → ∀ c ∈ childrenOf cr p, c ∈ a ++ q) →
      q.length + 2 * (((allChildren cr).toFinset \ (a ++ q).toFinset).card) < fuel →
      ∃ r, descendantsGo cr focal fuel q a = some r ∧ r.Nodup ∧
        (∀ y ∈ r, y ∈ allChildren cr ∧ CReach cr focal y) ∧
        (∀ p, p = focal ∨ p ∈ r → ∀ c ∈ childrenOf cr p, c ∈ r) := by
  obtain ⟨hAC, hfocal, hfocne, hempty⟩ := ht
  intro fuel
  induction fuel with
  | zero =>
    intro q a _ _ _ _ hf
    exact absurd hf (Nat.not_lt_zero _)
  | succ n ih =>
    intro q a h1 h2 h3 h4 hf
    match q with
    | [] =>
      refine ⟨a, by simp [descendantsGo], by simpa using h1, ?_, ?_⟩
      · intro y hy
        refine ⟨?_, h3 y (by simp [hy])⟩
        obtain ⟨p, _, hcp⟩ := h2 y (by simp [hy])
        exact mem_childrenOf_mem_allChildren hcp
      · intro p hp c hc
        simpa using h4 p hp c hc
    | id :: rest =>
      obtain ⟨p₀, hp₀, hidp₀⟩ := h2 id (by simp)
      have hidAC : id ∈ allChildren cr := mem_childrenOf_mem_allChildren hidp₀
      have hid1 : id ≠ "" := fun he => hempty (he ▸ hidAC)
      have hidfoc : id ≠ focal := fun he => hfocal (he ▸ hidAC)
      have hid2 : id ∉ a := fun hin =>
        (List.disjoint_of_nodup_append h1) hin (by simp)
      have hch : ∀ c ∈ childrenOf cr id, c ∉ a ++ id :: rest := by
        intro c hc hcin
        obtain ⟨p, hp, hcp⟩ := h2 c hcin
        have hpid : p ≠ id := by
          rintro rfl
          rcases hp with rfl | hpa
          · exact hidfoc rfl
          · exact hid2 hpa
        exact childrenOf_disjoint hAC hpid hcp hc
      have hchnd : (childrenOf cr id).Nodup :=
        (childrenOf_sublist_allChildren cr id).nodup hAC
      have hstep : descendantsGo cr focal (n + 1) (id :: rest) a =
          descendantsGo cr focal n (childrenOf cr id ++ rest) (a ++ [id]) := by
        rw [descendantsGo_step hid1 hid2, if_pos (Ne.symm hidfoc)]
      have h1'' : ((a ++ [id]) ++ rest).Nodup := by
        rw [List.append_assoc, List.singleton_append]
        exact h1
      have hXnd : (a ++ [id]).Nodup := h1''.of_append_left
      have hrestnd : rest.Nodup := h1''.of_append_right
      have hdisjXrest := List.disjoint_of_nodup_append h1''
      have hmem' : ∀ y, y ∈ (a ++ [id]) ++ (childrenOf cr id ++ rest) ↔
          y ∈ a ++ id :: rest ∨ y ∈ childrenOf cr id := by
        intro y
        simp only [List.mem_append, List.mem_cons, List.mem_singleton]
        tauto
      have h1' : ((a ++ [id]) ++ (childrenOf cr id ++ rest)).Nodup := by
        rw [List.nodup_append]
        refine ⟨hXnd, ?_, ?_⟩
        · rw [List.nodup_append]
          refine ⟨hchnd, hrestnd, ?_⟩
          intro c hc hcr
          exact hch c hc (by simp [hcr])
        · intro x hx hx'
          rcases List.mem_append.mp hx' with hx'' | hx''
          · refine hch x hx'' ?_
            rcases List.mem_append.mp hx with hxa | hxi
            · simp [hxa]
            · simp [List.mem_singleton.mp hxi]
          · exact hdisjXrest hx hx''
      have h2' : ∀ y ∈ (a ++ [id]) ++ (childrenOf cr id ++ rest),
          ∃ p, (p = focal ∨ p ∈ a ++ [id]) ∧ y ∈ childrenOf cr p := by
        intro y hy
        rcases (hmem' y).mp hy with hy' | hy'
        · obtain ⟨p, hp, hcp⟩ := h2 y hy'
          refine ⟨p, ?_, hcp⟩
          rcases hp with rfl | hpa
          · exact Or.inl rfl
          · exact Or.inr (by simp [hpa])
        · exact ⟨id, Or.inr (by simp), hy'⟩
      have h3' : ∀ y ∈ (a ++ [id]) ++ (childrenOf cr id ++ rest),
          CReach cr focal y := by
        intro y hy
        rcases (hmem' y).mp hy with hy' | hy'
        · exact h3 y hy'
        · exact CReach.tail (h3 id (by simp)) hy'
      have h4' : ∀ p, p = focal ∨ p ∈ a ++ [id] →
          ∀ c ∈ childrenOf cr p, c ∈ (a ++ [id]) ++ (childrenOf cr id ++ rest) := by
        intro p hp c hc
        rcases hp with rfl | hpa
        · exact (hmem' c).mpr (Or.inl (h4 p (Or.inl rfl) c hc))
        · rcases List.mem_append.mp hpa with hpa' | hpa'
          · exact (hmem' c).mpr (Or.inl (h4 p (Or.inr hpa') c hc))
          · rcases List.mem_singleton.mp hpa' with rfl
            exact (hmem' c).mpr (Or.inr hc)
      have hS' : ((a ++ [id]) ++ (childrenOf cr id ++ rest)).toFinset =
          (a ++ id :: rest).toFinset ∪ (childrenOf cr id).toFinset := by
        ext x
        simp only [Finset.mem_union, List.mem_toFinset]
        rw [hmem' x]
      have hsub : (childrenOf cr id).toFinset ⊆
          (allChildren cr).toFinset \ (a ++ id :: rest).toFinset := by
        intro c hc
        rw [List.mem_toFinset] at hc
        rw [Finset.mem_sdiff, List.mem_toFinset, List.mem_toFinset]
        exact ⟨mem_childrenOf_mem_allChildren hc, hch c hc⟩
      have hsd : (allChildren cr).toFinset \
            ((a ++ [id]) ++ (childrenOf cr id ++ rest)).toFinset =
          ((allChildren cr).toFinset \ (a ++ id :: rest).toFinset) \
            (childrenOf cr id).toFinset := by
        rw [hS']
        ext x
        simp only [Finset.mem_sdiff, Finset.mem_union]
        tauto
      have hcard : ((allChildren cr).toFinset \
            ((a ++ [id]) ++ (childrenOf cr id ++ rest)).toFinset).card =
          ((allChildren cr).toFinset \ (a ++ id :: rest).toFinset).card -
            (childrenOf cr id).length := by
        rw [hsd, Finset.card_sdiff hsub, List.toFinset_card_of_nodup hchnd]
      have hcardle : (childrenOf cr id).length ≤
          ((allChildren cr).toFinset \ (a ++ id :: rest).toFinset).card := by
        rw [show (childrenOf cr id).length = (childrenOf cr id).toFinset.card from
          (List.toFinset_card_of_nodup hchnd).symm]
        exact Finset.card_le_card hsub
      have hf' : (childrenOf cr id ++ rest).length +
          2 * (((allChildren cr).toFinset \
            ((a ++ [id]) ++ (childrenOf cr id ++ rest)).toFinset).card) < n := by
        rw [hcard, List.length_append]
        simp only [List.length_cons] at hf
        omega
      obtain ⟨r, hr, hrnd, hrmem, hrclose⟩ := ih h1' h2' h3' h4' hf'
      refine ⟨r, ?_, hrnd, hrmem, hrclose⟩
      rw [hstep]
      exact hr

-- ===== the claims =====

/-- C1: the claim states that `resolveDescendants` terminates for every
focal id and every child index, including self-referential child data.
The code does not: with the child index mapping A to [A] and focal id A,
the dequeued focal id is never added to the collected set (the visited
guard only checks collected ids, and the focal id is deliberately not
collected), so its re-enqueued occurrence never stops the loop.  The loop
fails to finish within any iteration bound whatsoever. -/
theorem c1_focal_self_child_never_terminates :
    ∀ fuel : Nat, descendantsGo [("A", ["A"])] "A" fuel ["A"] [] = none :=
  descendantsGo_selfloop_none

/-- C2 counterexample: the child index mapping A to [C, B], C to [D] and B
to [D, F] has no cycles (it is a dag), and F is reachable from focal id A
through B; yet the loop stops as soon as the duplicate D is dequeued a
second time, abandoning the pending queue, so F never appears: the result
is exactly [C, D, B]. -/
theorem c2_dag_loses_reachable_id :
    descendantsResult [("A", ["C", "B"]), ("C", ["D"]), ("B", ["D", "F"])] "A"
      ["C", "D", "B"] ∧
    CReach [("A", ["C", "B"]), ("C", ["D"]), ("B", ["D", "F"])] "A" "F" ∧
    "F" ∉ (["C", "D", "B"] : List StatusId) := by
  refine ⟨⟨8, by decide⟩, ?_, by decide⟩
  have hB : "B" ∈ childrenOf [("A", ["C", "B"]), ("C", ["D"]), ("B", ["D", "F"])] "A" := by
    decide
  have hF : "F" ∈ childrenOf [("A", ["C", "B"]), ("C", ["D"]), ("B", ["D", "F"])] "B" := by
    decide
  exact CReach.tail (CReach.tail (CReach.refl "A") hB) hF

/-- C2 (amended): on tree-shaped child indexes (no id recorded as a reply
twice, neither the focal id nor the empty string recorded as anyone's
reply) the loop terminates and returns every id reachable from the focal
id other than the focal id itself, exactly once.  The claim's further
assertion that an already-collected dequeued id stops only that branch is
false: the source `break`s out of the whole loop, abandoning the rest of
the pending queue (see the counterexample), so on merely acyclic indexes
reachable ids can be missing. -/
theorem c2_tree_reachable_exactly_once (cr : ChildIndex) (focal : StatusId)
    (ht : treeShaped cr focal) :
    ∃ r, descendantsGo cr focal (2 * (allChildren cr).length + 2) [focal] [] = some r ∧
      r.Nodup ∧ ∀ y, (y ∈ r ↔ CReach cr focal y ∧ y ≠ focal) := by
  obtain ⟨hAC, hfocal, hfocne, hempty⟩ := ht
  have hchnd : (childrenOf cr focal).Nodup :=
    (childrenOf_sublist_allChildren cr focal).nodup hAC
  have hlen : (childrenOf cr focal).length ≤ (allChildren cr).length :=
    (childrenOf_sublist_allChildren cr focal).length_le
  have hchsub : (childrenOf cr focal).toFinset ⊆ (allChildren cr).toFinset := by
    intro c hc
    rw [List.mem_toFinset] at hc ⊢
    exact mem_childrenOf_mem_allChildren hc
  have h1 : (([] : List StatusId) ++ (childrenOf cr focal ++ [])).Nodup := by
    simpa using hchnd
  have h2 : ∀ y ∈ ([] : List StatusId) ++ (childrenOf cr focal ++ []),
      ∃ p, (p = focal ∨ p ∈ ([] : List StatusId)) ∧ y ∈ childrenOf cr p := by
    intro y hy
    exact ⟨focal, Or.inl rfl, by simpa using hy⟩
  have h3 : ∀ y ∈ ([] : List StatusId) ++ (childrenOf cr focal ++ []),
      CReach cr focal y := by
    intro y hy
    exact CReach.tail (CReach.refl focal) (by simpa using hy)
  have h4 : ∀ p, p = focal ∨ p ∈ ([] : List StatusId) →
      ∀ c ∈ childrenOf cr p, c ∈ ([] : List StatusId) ++ (childrenOf cr focal ++ []) := by
    intro p hp c hc
    rcases hp with rfl | hpa
    · simpa using hc
    · simp at hpa
  have htf : (([] : List StatusId) ++ (childrenOf cr focal ++ [])).toFinset =
      (childrenOf cr focal).toFinset := by
    simp
  have hcard : ((allChildren cr).toFinset \
      (([] : List StatusId) ++ (childrenOf cr focal ++ [])).toFinset).card =
      (allChildren cr).length - (childrenOf cr focal).length := by
    rw [htf, Finset.card_sdiff hchsub, List.toFinset_card_of_nodup hAC,
      List.toFinset_card_of_nodup hchnd]
  have hf : (childrenOf cr focal ++ []).length +
      2 * ((allChildren cr).toFinset \
        (([] : List StatusId) ++ (childrenOf cr focal ++ [])).toFinset).card <
      2 * (allChildren cr).length + 1 := by
    rw [hcard, List.length_append, List.length_nil]
    omega
  obtain ⟨r, hr, hrnd, hrmem, hrclose⟩ :=
    descendantsGo_tree ⟨hAC, hfocal, hfocne, hempty⟩ h1 h2 h3 h4 hf
  refine ⟨r, ?_, hrnd, ?_⟩
  · have he2 : 2 * (allChildren cr).length + 2 =
        2 * (allChildren cr).length + 1 + 1 := rfl
    rw [he2, descendantsGo_step hfocne (by simp), if_neg (by simp)]
    exact hr
  · have key : ∀ w, CReach cr focal w → w = focal ∨ w ∈ r := by
      intro w hw
      induction hw with
      | refl => exact Or.inl rfl
      | tail hxy hz ihx => exact Or.inr (hrclose _ ihx _ hz)
    intro y
    constructor
    · intro hy
      obtain ⟨hyAC, hyre⟩ := hrmem y hy
      exact ⟨hyre, fun he => hfocal (he ▸ hyAC)⟩
    · rintro ⟨hre, hne⟩
      rcases key y hre with rfl | h
      · exact absurd rfl hne
      · exact h

/-- Witness for C2 at the child index mapping A to [B, C] and B to [D],
with focal id A. -/
theorem c2_tree_reachable_exactly_once_witness :
    treeShaped [("A", ["B", "C"]), ("B", ["D"])] "A" ∧
    (∃ r, descendantsGo [("A", ["B", "C"]), ("B", ["D"])] "A"
        (2 * (allChildren [("A", ["B", "C"]), ("B", ["D"])]).length + 2) ["A"] [] = some r ∧
      r.Nodup ∧
      ∀ y, (y ∈ r ↔ CReach [("A", ["B", "C"]), ("B", ["D"])] "A" y ∧ y ≠ "A")) :=
  ⟨by decide, c2_tree_reachable_exactly_once [("A", ["B", "C"]), ("B", ["D"])] "A" (by decide)⟩

/-- C3 counterexample: with the parent index making A and B each other's
parents and focal id A, `resolveAncestors` returns [A, B], which contains
the focal id: the cycle guard fires only after the focal id itself has been
prepended to the chain.  (The Thread component removes it again later, but
the claim is about the traversal's own result.) -/
theorem c3_focal_appears_under_cycle :
    "A" ∈ resolveAncestors "A" [("A", "B"), ("B", "A")] := by decide

/-- C3 (amended): `resolveAncestors` can contain the focal id, but only
when a parent cycle makes the focal id its own ancestor: whenever the
focal id is in the result, some positive number of parent-link steps leads
from the focal id back to itself.  (The Thread component deletes the focal
id from the chain afterwards, so the displayed result never shows it.) -/
theorem c3_focal_mem_implies_own_ancestor (focal : StatusId) (idx : ParentIndex)
    (h : focal ∈ resolveAncestors focal idx) :
    ∃ k, 0 < k ∧ parentIter idx k (some focal) = some focal := by
  unfold resolveAncestors getAncestorsIds at h
  cases he : ancestorsGo idx (idx.length + 2) [] (mapGet focal idx) with
  | none => exact absurd he (ancestorsGo_terminates idx _)
  | some r =>
    rw [he] at h
    simp only [Option.getD_some] at h
    refine ancestorsGo_reach he (fun a ha => absurd ha (List.not_mem_nil a)) ?_ focal h
    exact ⟨1, Nat.one_pos, rfl⟩

/-- Witness for C3 at the cyclic parent index mapping A to B and B to A. -/
theorem c3_focal_mem_implies_own_ancestor_witness :
    "A" ∈ resolveAncestors "A" [("A", "B"), ("B", "A")] ∧
    ∃ k, 0 < k ∧ parentIter [("A", "B"), ("B", "A")] k (some "A") = some "A" :=
  ⟨by decide, c3_focal_mem_implies_own_ancestor "A" [("A", "B"), ("B", "A")] (by decide)⟩

/-- C4: for every focal id, parent index and child index — mutually
inconsistent index pairs included — whenever the descendants loop
terminates, the two sequences the Thread selector produces are disjoint
and neither contains the focal id. -/
theorem c4_thread_disjoint_excludes_focal (focal : StatusId) (pidx : ParentIndex)
    (cidx : ChildIndex) (dr : List StatusId)
    (_hdr : descendantsResult cidx focal dr) :
    (∀ x ∈ (threadSelector focal pidx dr).1, x ∉ (threadSelector focal pidx dr).2) ∧
    focal ∉ (threadSelector focal pidx dr).1 ∧
    focal ∉ (threadSelector focal pidx dr).2 := by
  refine ⟨?_, ?_, ?_⟩
  · intro x hx hx2
    have hx2' : x ∈ osSubtract (osDelete dr focal) (threadAncestorsIds focal pidx dr) :=
      hx2
    exact (mem_osSubtract.mp hx2').2 hx
  · intro hx
    have hx' : focal ∈ osSubtract
        (osDelete (getAncestorsIds (mapGet focal pidx) pidx) focal) dr := hx
    exact (mem_osDelete.mp (mem_osSubtract.mp hx').1).2 rfl
  · intro hx
    have hx' : focal ∈ osSubtract (osDelete dr focal)
        (threadAncestorsIds focal pidx dr) := hx
    exact (mem_osDelete.mp (mem_osSubtract.mp hx').1).2 rfl

/-- Witness for C4 at an inconsistent index pair: X is recorded both as
A's parent and as A's reply. -/
theorem c4_thread_disjoint_excludes_focal_witness :
    descendantsResult [("A", ["X"])] "A" ["X"] ∧
    ((∀ x ∈ (threadSelector "A" [("A", "X")] ["X"]).1,
        x ∉ (threadSelector "A" [("A", "X")] ["X"]).2) ∧
      "A" ∉ (threadSelector "A" [("A", "X")] ["X"]).1 ∧
      "A" ∉ (threadSelector "A" [("A", "X")] ["X"]).2) :=
  ⟨⟨4, by decide⟩,
    c4_thread_disjoint_excludes_focal "A" [("A", "X")] [("A", ["X"])] ["X"] ⟨4, by decide⟩⟩

/-- C5: each dequeued id's reply list is reversed and pushed element by
element onto the front of the work queue, which puts the children in their
original order ahead of all remaining work (so each reply's own subtree is
processed before the next sibling); in particular, on the child index
mapping A to [B, C] and B to [D] with focal id A, the loop returns exactly
the sequence [B, D, C]. -/
theorem c5_depth_first_sibling_order (cr : ChildIndex) (focal : StatusId)
    (fuel : Nat) (id : StatusId) (rest acc rs : List StatusId)
    (hm : mapGet id cr = some rs) (h1 : id ≠ "") (h2 : id ∉ acc) :
    descendantsGo cr focal (fuel + 1) (id :: rest) acc =
      descendantsGo cr focal fuel (rs ++ rest)
        (if focal ≠ id then acc ++ [id] else acc) ∧
    descendantsGo [("A", ["B", "C"]), ("B", ["D"])] "A" 6 ["A"] [] =
      some ["B", "D", "C"] := by
  constructor
  · rw [descendantsGo_step h1 h2]
    have hce : childrenOf cr id = rs := by
      rw [childrenOf, hm]
      rfl
    rw [hce]
  · decide

/-- Witness for C5: the first iteration on the scenario index pushes B and
C, in that order, to the front of the queue. -/
theorem c5_depth_first_sibling_order_witness :
    mapGet "A" [("A", ["B", "C"]), ("B", ["D"])] = some ["B", "C"] ∧
    (descendantsGo [("A", ["B", "C"]), ("B", ["D"])] "A" 6 ["A"] [] =
        descendantsGo [("A", ["B", "C"]), ("B", ["D"])] "A" 5 (["B", "C"] ++ [])
          (if "A" ≠ "A" then ([] : List StatusId) ++ ["A"] else []) ∧
      descendantsGo [("A", ["B", "C"]), ("B", ["D"])] "A" 6 ["A"] [] =
        some ["B", "D", "C"]) :=
  ⟨by decide,
    c5_depth_first_sibling_order [("A", ["B", "C"]), ("B", ["D"])] "A" 5 "A" [] []
      ["B", "C"] (by decide) (by decide) (by decide)⟩

/-- C6 counterexample: the parent index mapping C to the empty string is
acyclic — the chain of parents of C is [""], so C's depth is 1 — but
`resolveAncestors` returns the empty chain: the source's truthiness check
treats the empty-string parent as reaching the root. -/
theorem c6_empty_parent_id_dropped :
    resolveAncestors "C" [("C", "")] = ([] : List StatusId) ∧
    specChainGo [("C", "")] 2 (parentStep [("C", "")] (some "C")) = some [""] ∧
    ([] : List StatusId) ≠ [""] := by
  refine ⟨by decide, by decide, by decide⟩

/-- C6 (amended): whenever the chain of parents from the focal id's parent
reaches a root (every acyclic parent index) and contains no empty-string
id, `resolveAncestors` returns exactly that chain, root-first, and the
chain's length is the focal id's depth: j parent-link steps from the focal
id stay defined for every j up to the length and become undefined one step
beyond it.  In particular, on the parent index mapping B to A and C to B,
the result for focal id C is exactly [A, B]. -/
theorem c6_acyclic_full_chain_root_first (focal : StatusId) (idx : ParentIndex)
    (m : Nat) (c : List StatusId)
    (hc : specChainGo idx m (parentStep idx (some focal)) = some c)
    (hne : "" ∉ c) :
    resolveAncestors focal idx = c ∧
    parentIter idx (c.length + 1) (some focal) = none ∧
    (∀ j, j ≤ c.length → parentIter idx j (some focal) ≠ none) ∧
    resolveAncestors "C" [("B", "A"), ("C", "B")] = ["A", "B"] := by
  have hval : ∀ x ∈ c, x ∈ idx.map Prod.snd := by
    refine specChainGo_values hc ?_
    intro s hs
    exact mapGet_mem_values hs
  have hnd := specChainGo_nodup hc
  have hlenb : c.length < idx.length + 2 := by
    have e1 : c.toFinset.card = c.length := List.toFinset_card_of_nodup hnd
    have e2 : c.toFinset ⊆ (idx.map Prod.snd).toFinset := by
      intro x hx
      rw [List.mem_toFinset] at hx ⊢
      exact hval x hx
    have e3 := Finset.card_le_card e2
    have e4 : (idx.map Prod.snd).toFinset.card ≤ (idx.map Prod.snd).length := by
      rw [List.card_toFinset]
      exact (List.dedup_sublist _).length_le
    have e5 : (idx.map Prod.snd).length = idx.length := List.length_map _ _
    omega
  have hmain : resolveAncestors focal idx = c := by
    unfold resolveAncestors getAncestorsIds
    rw [show mapGet focal idx = parentStep idx (some focal) from rfl]
    rw [ancestorsGo_eq_specChain hc hne List.nodup_nil
      (fun x _ => List.not_mem_nil x) hlenb]
    simp
  refine ⟨hmain, ?_, ?_, by decide⟩
  · rw [show parentIter idx (c.length + 1) (some focal) =
      parentIter idx c.length (parentStep idx (some focal)) from rfl]
    exact specChainGo_term hc
  · intro j hj
    match j with
    | 0 => simp [parentIter]
    | j' + 1 =>
      rw [show parentIter idx (j' + 1) (some focal) =
        parentIter idx j' (parentStep idx (some focal)) from rfl]
      exact specChainGo_steps_ne_none hc j' (by omega)

/-- Witness for C6 at the scenario index mapping B to A and C to B with
focal id C. -/
theorem c6_acyclic_full_chain_root_first_witness :
    specChainGo [("B", "A"), ("C", "B")] 3
        (parentStep [("B", "A"), ("C", "B")] (some "C")) = some ["A", "B"] ∧
    ("" : StatusId) ∉ (["A", "B"] : List StatusId) ∧
    resolveAncestors "C" [("B", "A"), ("C", "B")] = ["A", "B"] ∧
    parentIter [("B", "A"), ("C", "B")]
      ((["A", "B"] : List StatusId).length + 1) (some "C") = none := by
  have h := c6_acyclic_full_chain_root_first "C" [("B", "A"), ("C", "B")] 3 ["A", "B"]
    (by decide) (by decide)
  exact ⟨by decide, by decide, h.1, h.2.1⟩

/-- C7: for every focal id and parent index, parent cycles included, the
ancestors loop finishes within `idx.length + 2` iterations, and the chain
`resolveAncestors` returns is no longer than the number of distinct ids
occurring in the parent index. -/
theorem c7_ancestors_terminate_bounded (focal : StatusId) (idx : ParentIndex) :
    ancestorsGo idx (idx.length + 2) [] (mapGet focal idx) ≠ none ∧
    (resolveAncestors focal idx).length ≤
      ((idx.map Prod.fst ++ idx.map Prod.snd).dedup).length := by
  refine ⟨ancestorsGo_terminates idx _, ?_⟩
  unfold resolveAncestors getAncestorsIds
  cases he : ancestorsGo idx (idx.length + 2) [] (mapGet focal idx) with
  | none => exact absurd he (ancestorsGo_terminates idx _)
  | some r =>
    simp only [Option.getD_some]
    obtain ⟨hrnd, hrmem⟩ := ancestorsGo_inv he List.nodup_nil
    have hsub : ∀ x ∈ r, x ∈ idx.map Prod.snd := by
      intro x hx
      rcases hrmem x hx with hx' | ⟨s, hs, rfl⟩ | hx'
      · exact absurd hx' (List.not_mem_nil x)
      · exact mapGet_mem_values hs
      · exact hx'
    have e1 : r.toFinset.card = r.length := List.toFinset_card_of_nodup hrnd
    have e2 : r.toFinset ⊆ ((idx.map Prod.fst ++ idx.map Prod.snd).dedup).toFinset := by
      intro x hx
      rw [List.mem_toFinset] at hx ⊢
      rw [List.mem_dedup]
      exact List.mem_append.mpr (Or.inr (hsub x hx))
    have e3 := Finset.card_le_card e2
    have e4 : ((idx.map Prod.fst ++ idx.map Prod.snd).dedup).toFinset.card =
        ((idx.map Prod.fst ++ idx.map Prod.snd).dedup).length :=
      List.toFinset_card_of_nodup (List.nodup_dedup _)
    omega

/-- C8: determinism and order stability: any two terminating runs of the
descendants loop on the same index snapshot return the same sequence, the
ancestors loop returns the same list for any two sufficient fuel bounds,
and the Thread selector pair is a function of the two snapshots.  (The
embedding is purely functional, mirroring the source's lack of side
effects: the loops only read the caller-supplied indexes.) -/
theorem c8_resolution_deterministic (pidx : ParentIndex) (cidx : ChildIndex)
    (focal : StatusId) (r₁ r₂ : List StatusId)
    (h₁ : descendantsResult cidx focal r₁) (h₂ : descendantsResult cidx focal r₂) :
    r₁ = r₂ ∧
    (∀ f₁ f₂ : Nat, pidx.length + 2 ≤ f₁ → pidx.length + 2 ≤ f₂ →
      ancestorsGo pidx f₁ [] (mapGet focal pidx) =
        ancestorsGo pidx f₂ [] (mapGet focal pidx)) ∧
    threadSelector focal pidx r₁ = threadSelector focal pidx r₂ := by
  have he : r₁ = r₂ := descendantsResult_unique h₁ h₂
  refine ⟨he, ?_, by rw [he]⟩
  intro f₁ f₂ hf₁ hf₂
  cases ha : ancestorsGo pidx (pidx.length + 2) [] (mapGet focal pidx) with
  | none => exact absurd ha (ancestorsGo_terminates pidx _)
  | some r =>
    rw [ancestorsGo_le hf₁ ha, ancestorsGo_le hf₂ ha]

/-- Witness for C8: two runs on the same snapshots. -/
theorem c8_resolution_deterministic_witness :
    descendantsResult [("A", ["B"])] "A" ["B"] ∧
    ((["B"] : List StatusId) = ["B"] ∧
      (∀ f₁ f₂ : Nat, ([("X", "Y")] : ParentIndex).length + 2 ≤ f₁ →
        ([("X", "Y")] : ParentIndex).length + 2 ≤ f₂ →
        ancestorsGo [("X", "Y")] f₁ [] (mapGet "A" [("X", "Y")]) =
          ancestorsGo [("X", "Y")] f₂ [] (mapGet "A" [("X", "Y")])) ∧
      threadSelector "A" [("X", "Y")] ["B"] = threadSelector "A" [("X", "Y")] ["B"]) :=
  ⟨⟨4, by decide⟩,
    c8_resolution_deterministic [("X", "Y")] [("A", ["B"])] "A" ["B"] ["B"]
      ⟨4, by decide⟩ ⟨4, by decide⟩⟩

/-- C9: a non-focal id appearing both in the raw ancestor chain and in the
raw descendant set ends up in the descendant result and not in the
ancestor result: line 173 subtracts the raw descendants from the ancestor
chain first, and line 174 subtracts only that already-reduced chain from
the descendants, so the shared id survives on the descendant side. -/
theorem c9_shared_id_kept_in_descendants (focal : StatusId) (pidx : ParentIndex)
    (cidx : ChildIndex) (dr : List StatusId) (x : StatusId)
    (_hdr : descendantsResult cidx focal dr)
    (_hanc : x ∈ resolveAncestors focal pidx) (hdesc : x ∈ dr) (hne : x ≠ focal) :
    x ∈ threadDescendantsIds focal pidx dr ∧ x ∉ threadAncestorsIds focal pidx dr := by
  have hnotanc : x ∉ threadAncestorsIds focal pidx dr := by
    intro hx
    unfold threadAncestorsIds at hx
    exact (mem_osSubtract.mp hx).2 hdesc
  refine ⟨?_, hnotanc⟩
  unfold threadDescendantsIds
  rw [mem_osSubtract, mem_osDelete]
  exact ⟨⟨hdesc, hne⟩, hnotanc⟩

/-- Witness for C9 at the inconsistent pair recording X both as A's parent
and as A's reply: X stays in the descendant result only. -/
theorem c9_shared_id_kept_in_descendants_witness :
    descendantsResult [("A", ["X"])] "A" ["X"] ∧
    ("X" : StatusId) ∈ resolveAncestors "A" [("A", "X")] ∧
    ("X" : StatusId) ∈ (["X"] : List StatusId) ∧
    ("X" : StatusId) ≠ "A" ∧
    ("X" ∈ threadDescendantsIds "A" [("A", "X")] ["X"] ∧
      "X" ∉ threadAncestorsIds "A" [("A", "X")] ["X"]) :=
  ⟨⟨4, by decide⟩, by decide, by decide, by decide,
    c9_shared_id_kept_in_descendants "A" [("A", "X")] [("A", ["X"])] ["X"] "X"
      ⟨4, by decide⟩ (by decide) (by decide) (by decide)⟩

/-- C10: soundness with respect to reachability: whenever the descendants
loop terminates, every id in its result is reachable from the focal id by
following zero or more reply links of the child index — only dequeued ids
are appended, and only children of dequeued ids are ever enqueued. -/
theorem c10_descendants_sound_reachable (cidx : ChildIndex) (focal : StatusId)
    (r : List StatusId) (h : descendantsResult cidx focal r) :
    ∀ y ∈ r, CReach cidx focal y := by
  obtain ⟨fuel, hf⟩ := h
  apply descendantsGo_reach hf
  intro y hy
  have : y = focal := by simpa using hy
  subst this
  exact CReach.refl y

/-- Witness for C10 on a one-link child index. -/
theorem c10_descendants_sound_reachable_witness :
    descendantsResult [("A", ["B"])] "A" ["B"] ∧
    ∀ y ∈ (["B"] : List StatusId), CReach [("A", ["B"])] "A" y :=
  ⟨⟨4, by decide⟩,
    c10_descendants_sound_reachable [("A", ["B"])] "A" ["B"] ⟨4, by decide⟩⟩
